import Mathlib

/- Shallow embedding of the sliding-tile puzzle component (the script section of
the single Vue source file): board representation, completion and adjacency
predicates, click handling, solvability parity check, Fisher-Yates shuffle with
the accept-retry loop, and the elapsed-time session state. JS arrays of numbers
are modelled as lists of optional naturals, where none stands for undefined, so
that out-of-range reads and writes behave as in JS. Index arithmetic that can
see the sentinel -1 of indexOf is done over Int with floor division (Math.floor
of a real quotient) and truncated remainder (the JS percent operator). -/

def GRID_SIZE : Nat := 4

def TOTAL_TILES : Nat := GRID_SIZE * GRID_SIZE

def EMPTY_TILE : Nat := TOTAL_TILES - 1

/-- A JS array cell: a number, or none for undefined. -/
abbrev Cell := Option Nat

/-- The tiles array of the component. -/
abbrev Board := List Cell

/-- JS array read l[i] at a natural index: undefined when out of range. -/
def jsGetN (l : Board) (i : Nat) : Cell :=
  l.getD i none

/-- JS array read at a possibly negative index (result of indexOf). -/
def jsGetI (l : Board) (i : Int) : Cell :=
  if i < 0 then none else jsGetN l i.toNat

/-- JS array write l[i] = v: in range it updates, past the end it extends the
array, filling any gap with undefined. -/
def jsSetN (l : Board) (i : Nat) (v : Cell) : Board :=
  if i < l.length then l.set i v
  else l ++ List.replicate (i - l.length) none ++ [v]

/-- JS array write at a possibly negative index: a negative index stores a
plain object property, invisible to the array elements, hence a no-op here. -/
def jsSetI (l : Board) (i : Int) (v : Cell) : Board :=
  if i < 0 then l else jsSetN l i.toNat v

/-- JS Array.prototype.indexOf on a list of numbers: first index holding v,
or -1 when absent. -/
def jsIndexOfNat (l : List Nat) (v : Nat) : Int :=
  match List.findIdx? (fun x => x == v) l with
  | some i => (i : Int)
  | none => -1

/-- JS Array.prototype.indexOf on the tiles array. -/
def jsIndexOfCell (l : Board) (v : Cell) : Int :=
  match List.findIdx? (fun x => x == v) l with
  | some i => (i : Int)
  | none => -1

/-- The source helper findEmptyIndex: tiles.indexOf(EMPTY_TILE). -/
def findEmptyIndex (tiles : Board) : Int :=
  jsIndexOfCell tiles (some EMPTY_TILE)

/-- JS Array.prototype.every with the element and index callback arguments,
parameterised by the running index. -/
def everyIdxFrom (f : Nat → α → Bool) : Nat → List α → Bool
  | _, [] => true
  | i, x :: xs => f i x && everyIdxFrom f (i + 1) xs

/-- The computed isComplete: tiles.every((tile, index) => tile === index). -/
def isComplete (tiles : Board) : Bool :=
  everyIdxFrom (fun i c => c == some i) 0 tiles

/-- The same every-check on a plain number array, as used on a freshly
shuffled candidate inside initGame. -/
def isSolvedArr (arr : List Nat) : Bool :=
  everyIdxFrom (fun i v => v == i) 0 arr

/-- The source isAdjacent: compares row and column of the clicked index with
those of the empty slot; exactly one coordinate may differ, by exactly one. -/
def isAdjacent (tiles : Board) (index : Nat) : Bool :=
  let emptyIndex := findEmptyIndex tiles
  let emptyRow := emptyIndex.fdiv (GRID_SIZE : Int)
  let emptyCol := emptyIndex.tmod (GRID_SIZE : Int)
  let tileRow := ((index : Int)).fdiv (GRID_SIZE : Int)
  let tileCol := ((index : Int)).tmod (GRID_SIZE : Int)
  let rowDiff := (emptyRow - tileRow).natAbs
  let colDiff := (emptyCol - tileCol).natAbs
  (rowDiff == 1 && colDiff == 0) || (rowDiff == 0 && colDiff == 1)

/-- Session state of the component: the reactive refs tiles, elapsedTime,
isTimerRunning, hasStarted, and the module-level interval handle, abstracted
to whether an interval is currently scheduled. -/
structure SessionState where
  tiles : Board
  elapsedTime : Nat
  isTimerRunning : Bool
  hasStarted : Bool
  timerInterval : Bool
deriving DecidableEq

/-- The source startTimer: a no-op while running, otherwise sets both flags
and schedules the interval. -/
def startTimer (s : SessionState) : SessionState :=
  if s.isTimerRunning then s
  else { s with isTimerRunning := true, hasStarted := true, timerInterval := true }

/-- The source stopTimer: clears the interval when present, then clears the
running flag. -/
def stopTimer (s : SessionState) : SessionState :=
  let s1 := if s.timerInterval then { s with timerInterval := false } else s
  { s1 with isTimerRunning := false }

/-- The source resetTimer: stopTimer, then zero the clock and the started
flag. -/
def resetTimer (s : SessionState) : SessionState :=
  let s1 := stopTimer s
  { s1 with elapsedTime := 0, hasStarted := false }

/-- The watch on isComplete: when the board is complete and the timer runs,
stop it. Applied after every change of tiles; when the board is not complete
the watcher body does nothing, so applying it unconditionally is faithful. -/
def watchComplete (s : SessionState) : SessionState :=
  if isComplete s.tiles && s.isTimerRunning then stopTimer s else s

/-- One firing of the scheduled interval callback: increments elapsedTime.
It can only fire while an interval is scheduled; clearInterval cancels any
pending firing. -/
def tick (s : SessionState) : SessionState :=
  if s.timerInterval then { s with elapsedTime := s.elapsedTime + 1 } else s

/-- The source handleTileClick: reject when complete or not adjacent;
otherwise start the timer on the first valid click and swap the clicked cell
with the empty cell by destructuring assignment on a copy. -/
def handleTileClick (s : SessionState) (index : Nat) : SessionState :=
  if isComplete s.tiles then s
  else if isAdjacent s.tiles index then
    let s1 := if !s.hasStarted then startTimer s else s
    let emptyIndex := findEmptyIndex s1.tiles
    let a := jsGetI s1.tiles emptyIndex
    let b := jsGetN s1.tiles index
    let t1 := jsSetN s1.tiles index a
    let t2 := jsSetI t1 emptyIndex b
    { s1 with tiles := t2 }
  else s

/-- A full move request event: the click handler, then the reactive flush of
the completion watcher. -/
def requestMove (s : SessionState) (index : Nat) : SessionState :=
  watchComplete (handleTileClick s index)

/-- The inversion count of the nested loops in isSolvable: for every element,
the later elements smaller than it. -/
def countInversions : List Nat → Nat
  | [] => 0
  | x :: rest => rest.countP (fun y => decide (x > y)) + countInversions rest

/-- The source isSolvable: parity rule on the inversion count of the non-empty
labels and the row of the empty slot counted from the bottom. -/
def isSolvable (arr : List Nat) : Bool :=
  let flatArr := arr.filter (fun x => x != EMPTY_TILE)
  let inversions := countInversions flatArr
  let emptyRow := (jsIndexOfNat arr EMPTY_TILE).fdiv (GRID_SIZE : Int)
  let emptyRowFromBottom := (GRID_SIZE : Int) - emptyRow
  if emptyRowFromBottom.tmod 2 == 1 then inversions % 2 == 0
  else inversions % 2 == 1

/-- The destructuring swap of two in-range positions inside shuffleArray. -/
def swapList (l : List α) (i j : Nat) (d : α) : List α :=
  (l.set i (l.getD j d)).set j (l.getD i d)

/-- The Fisher-Yates loop of shuffleArray, indexed by the loop counter and a
choice function giving, for each counter value i, the value of
Math.floor(Math.random() * (i + 1)); a real random draw always satisfies
choices i <= i. -/
def fisherYatesAux (choices : Nat → Nat) : List Nat → Nat → List Nat
  | l, 0 => l
  | l, i + 1 => fisherYatesAux choices (swapList l (i + 1) (choices (i + 1)) 0) i

/-- The source shuffleArray on a number array, with the random draws made
explicit. -/
def shuffleArray (arr : List Nat) (choices : Nat → Nat) : List Nat :=
  fisherYatesAux choices arr (arr.length - 1)

/-- The array [0, 1, ..., 15] built at the top of initGame. -/
def original : List Nat :=
  List.range TOTAL_TILES

/-- The exit condition of the do-while retry loop of initGame: the candidate
is kept when it is solvable and not already the solved arrangement. -/
def shuffleAccepted (b : List Nat) : Bool :=
  isSolvable b && !(isSolvedArr b)

/-- The boards the retry loop of initGame can deliver: Fisher-Yates outputs of
the original array, for some admissible sequence of random draws, that pass
the acceptance test. -/
def producedByInitGame (b : List Nat) : Prop :=
  (∃ choices : Nat → Nat, (∀ i, choices i ≤ i) ∧ b = shuffleArray original choices) ∧
    shuffleAccepted b = true

/-- The source initGame, parameterised by the accepted shuffle outcome: store
the shuffled board (letting the completion watcher observe the change) and
reset the timer. -/
def initGame (s : SessionState) (shuffled : List Nat) : SessionState :=
  resetTimer (watchComplete { s with tiles := shuffled.map some })

/-- The source resetGame simply calls initGame. -/
def resetGame (s : SessionState) (shuffled : List Nat) : SessionState :=
  initGame s shuffled

/-- The refs before onMounted runs: empty tiles, zero clock, no flags, no
interval. -/
def initialState : SessionState :=
  ⟨[], 0, false, false, false⟩

/-- Session states reachable from a fresh component by click events, interval
firings, and new-game resets (including the initGame run by onMounted). -/
inductive Reach : SessionState → Prop
  | start : Reach initialState
  | move : ∀ s p, Reach s → Reach (requestMove s p)
  | timerFire : ∀ s, Reach s → Reach (tick s)
  | newGame : ∀ s b, Reach s → producedByInitGame b → Reach (initGame s b)

/-- Modelled from the wording of the specification: the inversion count of a
label sequence is the number of pairs of positions (i, j) with i before j
where the label at i exceeds the label at j. -/
def specInversionCount (l : List Nat) : Nat :=
  ((Finset.range l.length ×ˢ Finset.range l.length).filter
    (fun q => q.1 < q.2 ∧ l.getD q.2 0 < l.getD q.1 0)).card

/-- Modelled from the wording of the specification: the parity rule for
solvability. With e the position of the empty slot, emptyRowFromBottom is
gridSize minus the zero-based row of e; the arrangement is solvable when that
distance is odd and the inversion count over the non-empty labels is even, or
the distance is even and the inversion count is odd. -/
def specSolvable (b : List Nat) : Prop :=
  ∃ e, e < b.length ∧ b.getD e 0 = EMPTY_TILE ∧
    ((Odd (GRID_SIZE - e / GRID_SIZE) ∧
        Even (specInversionCount (b.filter (fun x => x != EMPTY_TILE)))) ∨
      (Even (GRID_SIZE - e / GRID_SIZE) ∧
        Odd (specInversionCount (b.filter (fun x => x != EMPTY_TILE)))))

/-- The concrete board of the scenario in the spec: solved with positions 0
and 1 swapped, empty at 15. -/
def c4list : List Nat :=
  [1, 0, 2, 3, 4, 5, 6, 7, 8, 9, 10, 11, 12, 13, 14, 15]

/-- A session holding the scenario board. -/
def c4state : SessionState :=
  ⟨c4list.map some, 0, false, false, false⟩

/-- A board with the empty slot at position 12 and an out-of-range click
target, for the out-of-range behaviour of the click handler. -/
def c10list : List Nat :=
  [0, 1, 2, 3, 4, 5, 6, 7, 8, 9, 10, 11, 15, 13, 14, 12]

/-- A session holding that board. -/
def c10state : SessionState :=
  ⟨c10list.map some, 0, false, false, false⟩

/-- One move away from solved, timer running. -/
def c8list : List Nat :=
  [0, 1, 2, 3, 4, 5, 6, 7, 8, 9, 10, 15, 12, 13, 14, 11]

/-- The session for the completion-stop property. -/
def c8state : SessionState :=
  ⟨c8list.map some, 42, true, true, true⟩

/-- A fixed admissible sequence of random draws. -/
def sampleChoices : Nat → Nat :=
  fun _ => 0

/-- The Fisher-Yates output for those draws. -/
def sampleBoard : List Nat :=
  shuffleArray original sampleChoices

lemma startTimer_tiles (s : SessionState) : (startTimer s).tiles = s.tiles := by
  unfold startTimer; split <;> rfl

lemma startTimer_elapsed (s : SessionState) :
    (startTimer s).elapsedTime = s.elapsedTime := by
  unfold startTimer; split <;> rfl

lemma stopTimer_tiles (s : SessionState) : (stopTimer s).tiles = s.tiles := by
  unfold stopTimer; split <;> rfl

lemma stopTimer_elapsed (s : SessionState) :
    (stopTimer s).elapsedTime = s.elapsedTime := by
  unfold stopTimer; split <;> rfl

lemma stopTimer_hasStarted (s : SessionState) :
    (stopTimer s).hasStarted = s.hasStarted := by
  unfold stopTimer; split <;> rfl

lemma stopTimer_running (s : SessionState) :
    (stopTimer s).isTimerRunning = false := by
  unfold stopTimer; split <;> rfl

lemma watchComplete_tiles (s : SessionState) :
    (watchComplete s).tiles = s.tiles := by
  unfold watchComplete; split
  · exact stopTimer_tiles s
  · rfl

lemma requestMove_tiles (s : SessionState) (p : Nat) :
    (requestMove s p).tiles = (handleTileClick s p).tiles := by
  unfold requestMove; exact watchComplete_tiles _

lemma getD_set_self (l : List α) (i : Nat) (a d : α) (h : i < l.length) :
    (l.set i a).getD i d = a := by
  rw [List.getD_eq_getElem _ _ (by simpa using h)]
  exact List.getElem_set_self _

lemma getD_set_ne (l : List α) {i j : Nat} (a d : α) (h : i ≠ j) :
    (l.set i a).getD j d = l.getD j d := by
  by_cases hj : j < l.length
  · rw [List.getD_eq_getElem _ _ (by simpa using hj), List.getD_eq_getElem _ _ hj]
    exact List.getElem_set_ne h _
  · rw [List.getD_eq_default _ _ (by simp; omega), List.getD_eq_default _ _ (by omega)]

lemma set_getD_self (l : List α) (i : Nat) (d : α) (h : i < l.length) :
    l.set i (l.getD i d) = l := by
  rw [List.getD_eq_getElem _ _ h]
  apply List.ext_getElem
  · simp
  · intro n h1 h2
    rw [List.getElem_set]
    split
    · subst ‹i = n›; rfl
    · rfl

lemma find_unique_aux [BEq α] [LawfulBEq α] (a d : α) :
    ∀ (l : List α) (n : Nat), l.countP (fun x => x == a) = 1 →
      ∃ e, List.findIdx? (fun x => x == a) l n = some (n + e) ∧ e < l.length ∧
        l.getD e d = a ∧ ∀ j, j < l.length → l.getD j d = a → j = e := by
  intro l
  induction l with
  | nil => intro n h; simp at h
  | cons x xs ih =>
    intro n h
    rw [List.countP_cons] at h
    by_cases hx : (x == a) = true
    · have hxa : x = a := eq_of_beq hx
      have hxs : xs.countP (fun x => x == a) = 0 := by rw [if_pos hx] at h; omega
      have hnotin : ∀ y ∈ xs, ¬((y == a) = true) := by
        simpa using List.countP_eq_zero.mp hxs
      refine ⟨0, ?_, by simp, by simpa using hxa, ?_⟩
      · rw [List.findIdx?_cons]; simp [hx]
      · intro j hj hja
        match j with
        | 0 => rfl
        | j + 1 =>
          exfalso
          rw [List.getD_cons_succ] at hja
          have hjlen : j < xs.length := by simpa using hj
          rw [List.getD_eq_getElem _ _ hjlen] at hja
          exact hnotin _ (List.getElem_mem hjlen) (beq_iff_eq.mpr hja)
    · have h1 : xs.countP (fun x => x == a) = 1 := by rw [if_neg hx] at h; omega
      obtain ⟨e, hf, he, hg, hu⟩ := ih (n + 1) h1
      refine ⟨e + 1, ?_, by simpa using Nat.succ_lt_succ he, by simpa using hg, ?_⟩
      · rw [List.findIdx?_cons]
        simp only [hx, if_false]
        rw [hf]
        have hne : n + 1 + e = n + (e + 1) := by omega
        simp [hne]
      · intro j hj hja
        match j with
        | 0 =>
          exfalso
          rw [List.getD_cons_zero] at hja
          exact hx (beq_iff_eq.mpr hja)
        | j + 1 =>
          rw [List.getD_cons_succ] at hja
          have := hu j (by simpa using hj) hja
          omega

lemma find_unique [BEq α] [LawfulBEq α] (a d : α) (l : List α)
    (h : l.countP (fun x => x == a) = 1) :
    ∃ e, List.findIdx? (fun x => x == a) l = some e ∧ e < l.length ∧
      l.getD e d = a ∧ ∀ j, j < l.length → l.getD j d = a → j = e := by
  obtain ⟨e, hf, he, hg, hu⟩ := find_unique_aux a d l 0 h
  exact ⟨e, by simpa using hf, he, hg, hu⟩

lemma cons_set_perm (d : α) :
    ∀ (xs : List α) (j : Nat) (x : α), j < xs.length →
      (xs.getD j d :: xs.set j x).Perm (x :: xs) := by
  intro xs
  induction xs with
  | nil => intro j x h; simp at h
  | cons y ys ih =>
    intro j x h
    match j with
    | 0 =>
      simp only [List.getD_cons_zero, List.set]
      exact List.Perm.swap x y ys
    | j + 1 =>
      simp only [List.getD_cons_succ, List.set]
      have h1 : j < ys.length := by simpa using h
      exact (List.Perm.swap y (ys.getD j d) (ys.set j x)).trans
        (((ih j x h1).cons y).trans (List.Perm.swap x y ys))

lemma swap_perm (d : α) :
    ∀ (l : List α) (i j : Nat), i < l.length → j < l.length →
      (swapList l i j d).Perm l := by
  intro l
  induction l with
  | nil => intro i j hi _; simp at hi
  | cons x xs ih =>
    intro i j hi hj
    by_cases hij : i = j
    · subst hij
      unfold swapList
      rw [List.set_set, set_getD_self _ _ _ hi]
    · match i, j with
      | 0, 0 => exact absurd rfl hij
      | 0, j + 1 =>
        unfold swapList
        simp only [List.getD_cons_succ, List.getD_cons_zero, List.set]
        exact cons_set_perm d xs j x (by simpa using hj)
      | i + 1, 0 =>
        unfold swapList
        simp only [List.getD_cons_succ, List.getD_cons_zero, List.set]
        exact cons_set_perm d xs i x (by simpa using hi)
      | i + 1, j + 1 =>
        have h1 : i < xs.length := by simpa using hi
        have h2 : j < xs.length := by simpa using hj
        have := ih i j h1 h2
        unfold swapList at this ⊢
        simp only [List.getD_cons_succ, List.set]
        exact this.cons x

lemma fyAux_perm (c : Nat → Nat) (hc : ∀ i, c i ≤ i) :
    ∀ (n : Nat) (l : List Nat), n < l.length → (fisherYatesAux c l n).Perm l := by
  intro n
  induction n with
  | zero => intro l _; exact List.Perm.refl l
  | succ k ih =>
    intro l h
    have hsw : (swapList l (k + 1) (c (k + 1)) 0).Perm l :=
      swap_perm 0 l (k + 1) (c (k + 1)) h (lt_of_le_of_lt (hc (k + 1)) h)
    have hlen : (swapList l (k + 1) (c (k + 1)) 0).length = l.length := by
      unfold swapList; simp
    exact (ih _ (by rw [hlen]; omega)).trans hsw

lemma shuffle_perm (c : Nat → Nat) (hc : ∀ i, c i ≤ i) :
    (shuffleArray original c).Perm original := by
  unfold shuffleArray
  apply fyAux_perm c hc
  have h16 : original.length = 16 := by
    unfold original
    rw [List.length_range]
    decide
  omega

lemma produced_perm {b : List Nat} (h : producedByInitGame b) :
    b.Perm original := by
  obtain ⟨⟨c, hc, hb⟩, _⟩ := h
  rw [hb]
  exact shuffle_perm c hc

lemma everyIdxFrom_map_some (b : List Nat) :
    ∀ n, everyIdxFrom (fun i c => c == some i) n (b.map some) =
      everyIdxFrom (fun i v => v == i) n b := by
  induction b with
  | nil => intro n; rfl
  | cons x xs ih =>
    intro n
    simp only [List.map_cons, everyIdxFrom, ih]
    rfl

lemma everyIdxFrom_false (b : List Nat) :
    ∀ n, everyIdxFrom (fun i v => v == i) n b = false →
      ∃ k, k < b.length ∧ b.getD k 0 ≠ n + k := by
  induction b with
  | nil => intro n h; simp [everyIdxFrom] at h
  | cons x xs ih =>
    intro n h
    simp only [everyIdxFrom, Bool.and_eq_false_iff] at h
    rcases h with h | h
    · refine ⟨0, by simp, ?_⟩
      simp only [List.getD_cons_zero, Nat.add_zero]
      intro hx
      simp [hx] at h
    · obtain ⟨k, hk, hne⟩ := ih (n + 1) h
      refine ⟨k + 1, by simpa using Nat.succ_lt_succ hk, ?_⟩
      rw [List.getD_cons_succ]
      intro hx
      exact hne (by omega)

lemma board_count {t : Board} (h : t.Perm ((List.range TOTAL_TILES).map some)) :
    t.countP (fun x => x == some EMPTY_TILE) = 1 := by
  rw [h.countP_eq (fun x => x == some EMPTY_TILE)]
  decide

lemma board_length {t : Board} (h : t.Perm ((List.range TOTAL_TILES).map some)) :
    t.length = TOTAL_TILES := by
  rw [h.length_eq, List.length_map, List.length_range]

lemma jsGetI_natCast (l : Board) (n : Nat) : jsGetI l (n : Int) = l.getD n none := by
  unfold jsGetI jsGetN
  rw [if_neg (by omega)]
  simp

lemma jsSetI_natCast (l : Board) (n : Nat) (v : Cell) :
    jsSetI l (n : Int) v = jsSetN l n v := by
  unfold jsSetI
  rw [if_neg (by omega)]
  simp

lemma jsSetN_lt (l : Board) (n : Nat) (v : Cell) (h : n < l.length) :
    jsSetN l n v = l.set n v := by
  unfold jsSetN
  rw [if_pos h]

lemma findEmptyIndex_eq {t : Board} {e : Nat}
    (hf : List.findIdx? (fun x => x == some EMPTY_TILE) t = some e) :
    findEmptyIndex t = (e : Int) := by
  unfold findEmptyIndex jsIndexOfCell
  rw [hf]

lemma click_branch_tiles (s : SessionState) :
    (if (!s.hasStarted) = true then startTimer s else s).tiles = s.tiles := by
  cases s.hasStarted <;> simp [startTimer_tiles]

lemma applied_tiles (s : SessionState) (p e : Nat)
    (hc : isComplete s.tiles = false) (ha : isAdjacent s.tiles p = true)
    (hf : List.findIdx? (fun x => x == some EMPTY_TILE) s.tiles = some e)
    (he : e < s.tiles.length) (hp : p < s.tiles.length) :
    (handleTileClick s p).tiles =
      (s.tiles.set p (s.tiles.getD e none)).set e (s.tiles.getD p none) := by
  have hfe : findEmptyIndex s.tiles = (e : Int) := findEmptyIndex_eq hf
  unfold handleTileClick
  rw [hc, ha]
  simp only [Bool.false_eq_true, if_false, if_true]
  rw [click_branch_tiles s, hfe, jsGetI_natCast, jsSetI_natCast,
    jsSetN_lt _ _ _ hp, jsSetN_lt _ _ _ (by rw [List.length_set]; exact he)]
  unfold jsGetN
  rfl

lemma rejected_state (s : SessionState) (p : Nat)
    (h : isComplete s.tiles = true ∨ isAdjacent s.tiles p = false) :
    handleTileClick s p = s := by
  unfold handleTileClick
  rcases h with h | h
  · rw [h]
    simp
  · by_cases hc : isComplete s.tiles = true
    · rw [hc]; simp
    · simp only [Bool.not_eq_true] at hc
      rw [hc, h]
      simp

lemma resetTimer_elapsed (s : SessionState) : (resetTimer s).elapsedTime = 0 := rfl

lemma resetTimer_hasStarted (s : SessionState) : (resetTimer s).hasStarted = false := rfl

lemma resetTimer_running (s : SessionState) :
    (resetTimer s).isTimerRunning = false :=
  stopTimer_running s

lemma resetTimer_tiles (s : SessionState) : (resetTimer s).tiles = s.tiles :=
  stopTimer_tiles s

lemma isComplete_map_some (b : List Nat) :
    isComplete (b.map some) = isSolvedArr b :=
  everyIdxFrom_map_some b 0

lemma accepted_parts {b : List Nat} (h : shuffleAccepted b = true) :
    isSolvable b = true ∧ isSolvedArr b = false := by
  unfold shuffleAccepted at h
  rw [Bool.and_eq_true] at h
  refine ⟨h.1, ?_⟩
  have h2 := h.2
  revert h2
  cases isSolvedArr b <;> simp

/-- C1: every board delivered by the shuffle retry loop of initGame passes
isSolvable and differs from the solved arrangement at some position below 16. -/
theorem shuffle_output_solvable_unsolved (b : List Nat) (h : producedByInitGame b) :
    isSolvable b = true ∧ ∃ i, i < TOTAL_TILES ∧ b.getD i 0 ≠ i := by
  obtain ⟨hsolv, hns⟩ := accepted_parts h.2
  refine ⟨hsolv, ?_⟩
  have hlen : b.length = TOTAL_TILES := by
    rw [(produced_perm h).length_eq]
    unfold original
    exact List.length_range _
  obtain ⟨k, hk, hne⟩ := everyIdxFrom_false b 0 hns
  exact ⟨k, hlen ▸ hk, by simpa using hne⟩

/-- C1 witness: the retry-loop output for the all-zero draw sequence. -/
theorem shuffle_output_solvable_unsolved_w :
    isSolvable sampleBoard = true ∧
      ∃ i, i < TOTAL_TILES ∧ sampleBoard.getD i 0 ≠ i :=
  shuffle_output_solvable_unsolved sampleBoard
    ⟨⟨sampleChoices, fun i => Nat.zero_le i, rfl⟩, by decide⟩

/-- C4: on the board with positions 0 and 1 swapped from solved and the empty
slot at 15, the board is not complete, the click on 0 is rejected leaving the
board unchanged, and the click on 11 is applied producing exactly the stated
board. -/
theorem concrete_scenario_c4 :
    isComplete c4state.tiles = false ∧
    isAdjacent c4state.tiles 0 = false ∧
    (requestMove c4state 0).tiles = c4state.tiles ∧
    isAdjacent c4state.tiles 11 = true ∧
    (requestMove c4state 11).tiles =
      ([1, 0, 2, 3, 4, 5, 6, 7, 8, 9, 10, 15, 12, 13, 14, 11] : List Nat).map some := by
  decide

/-- C10: with the empty slot at position 12, the out-of-range click on 16
passes the adjacency test and is applied, writing array index 16; afterwards
no position below 16 holds the empty label and the permutation invariant is
broken. -/
theorem out_of_range_click_c10 :
    isAdjacent c10state.tiles 16 = true ∧
    (requestMove c10state 16).tiles =
      [some 0, some 1, some 2, some 3, some 4, some 5, some 6, some 7, some 8,
        some 9, some 10, some 11, none, some 13, some 14, some 12, some 15] ∧
    (∀ i, i < TOTAL_TILES →
      (requestMove c10state 16).tiles.getD i none ≠ some EMPTY_TILE) ∧
    ¬ (requestMove c10state 16).tiles.Perm ((List.range TOTAL_TILES).map some) := by
  decide

/-- C7: initGame on any prior session and any accepted shuffle output yields
zero elapsed time, cleared flags, an unsolved board, and a solvable shuffle. -/
theorem new_game_resets (s : SessionState) (b : List Nat)
    (h : producedByInitGame b) :
    (initGame s b).elapsedTime = 0 ∧
    (initGame s b).isTimerRunning = false ∧
    (initGame s b).hasStarted = false ∧
    isComplete (initGame s b).tiles = false ∧
    isSolvable b = true := by
  obtain ⟨hsolv, hns⟩ := accepted_parts h.2
  have htiles : (initGame s b).tiles = b.map some := by
    unfold initGame
    rw [resetTimer_tiles, watchComplete_tiles]
  refine ⟨rfl, resetTimer_running _, rfl, ?_, hsolv⟩
  rw [htiles, isComplete_map_some]
  exact hns

/-- C7 witness: resetting a dirty session with a concrete accepted shuffle. -/
theorem new_game_resets_w :
    (initGame c8state sampleBoard).elapsedTime = 0 ∧
    (initGame c8state sampleBoard).isTimerRunning = false ∧
    (initGame c8state sampleBoard).hasStarted = false ∧
    isComplete (initGame c8state sampleBoard).tiles = false ∧
    isSolvable sampleBoard = true :=
  new_game_resets c8state sampleBoard
    ⟨⟨sampleChoices, fun i => Nat.zero_le i, rfl⟩, by decide⟩

lemma applied_click_flags_running (s : SessionState) (p : Nat)
    (hrun : s.isTimerRunning = true)
    (hc : isComplete s.tiles = false) (ha : isAdjacent s.tiles p = true) :
    (handleTileClick s p).elapsedTime = s.elapsedTime ∧
    (handleTileClick s p).isTimerRunning = true ∧
    (handleTileClick s p).hasStarted = s.hasStarted := by
  unfold handleTileClick
  rw [hc, ha]
  simp only [Bool.false_eq_true, if_false, if_true]
  have hstart : startTimer s = s := by unfold startTimer; rw [if_pos hrun]
  cases hst : s.hasStarted <;> simp [hst, hstart, hrun]

/-- C8: from a running session, an accepted click that completes the board
stops the timer while retaining the elapsed time and the started flag, and
leaves the board exactly as the click produced it. -/
theorem completion_stops_timer (s : SessionState) (p : Nat)
    (hrun : s.isTimerRunning = true)
    (hc : isComplete s.tiles = false) (ha : isAdjacent s.tiles p = true)
    (hdone : isComplete (handleTileClick s p).tiles = true) :
    (requestMove s p).isTimerRunning = false ∧
    (requestMove s p).elapsedTime = s.elapsedTime ∧
    (requestMove s p).hasStarted = s.hasStarted ∧
    (requestMove s p).tiles = (handleTileClick s p).tiles := by
  obtain ⟨hel, hrn, hhs⟩ := applied_click_flags_running s p hrun hc ha
  unfold requestMove watchComplete
  rw [hdone, hrn]
  simp only [Bool.and_self, if_true]
  exact ⟨stopTimer_running _, (stopTimer_elapsed _).trans hel,
    (stopTimer_hasStarted _).trans hhs, stopTimer_tiles _⟩

/-- C8 witness: a running session one move from solved, clicking the last
tile. -/
theorem completion_stops_timer_w :
    (requestMove c8state 15).isTimerRunning = false ∧
    (requestMove c8state 15).elapsedTime = c8state.elapsedTime ∧
    (requestMove c8state 15).hasStarted = c8state.hasStarted ∧
    (requestMove c8state 15).tiles = (handleTileClick c8state 15).tiles :=
  completion_stops_timer c8state 15 rfl (by decide) (by decide) (by decide)

lemma inv_stopTimer (s : SessionState) :
    (stopTimer s).isTimerRunning = true → (stopTimer s).hasStarted = true := by
  rw [stopTimer_running]
  intro h
  cases h

lemma inv_watchComplete (s : SessionState)
    (hP : s.isTimerRunning = true → s.hasStarted = true) :
    (watchComplete s).isTimerRunning = true → (watchComplete s).hasStarted = true := by
  unfold watchComplete
  split
  · exact inv_stopTimer s
  · exact hP

lemma inv_tick (s : SessionState)
    (hP : s.isTimerRunning = true → s.hasStarted = true) :
    (tick s).isTimerRunning = true → (tick s).hasStarted = true := by
  unfold tick
  split
  · exact hP
  · exact hP

lemma inv_handleTileClick (s : SessionState) (p : Nat)
    (hP : s.isTimerRunning = true → s.hasStarted = true) :
    (handleTileClick s p).isTimerRunning = true →
      (handleTileClick s p).hasStarted = true := by
  unfold handleTileClick
  split
  · exact hP
  · split
    · cases hst : s.hasStarted
      · simp only [hst, Bool.not_false, if_true]
        unfold startTimer
        cases hrun : s.isTimerRunning
        · simp
        · intro _
          exact hP hrun
      · simp only [hst, Bool.not_true, Bool.false_eq_true, if_false]
        intro _
        trivial
    · exact hP

lemma inv_requestMove (s : SessionState) (p : Nat)
    (hP : s.isTimerRunning = true → s.hasStarted = true) :
    (requestMove s p).isTimerRunning = true →
      (requestMove s p).hasStarted = true :=
  inv_watchComplete _ (inv_handleTileClick s p hP)

lemma inv_initGame (s : SessionState) (b : List Nat) :
    (initGame s b).isTimerRunning = true → (initGame s b).hasStarted = true := by
  rw [show (initGame s b).isTimerRunning = false from resetTimer_running _]
  intro h
  cases h

/-- C9: in every state reachable from a fresh component by clicks, interval
firings, and resets, a running timer implies a started session. -/
theorem running_implies_started (s : SessionState) (hs : Reach s)
    (hrun : s.isTimerRunning = true) : s.hasStarted = true := by
  revert hrun
  induction hs with
  | start => intro hrun; cases hrun
  | move s p _ ih => exact inv_requestMove s p ih
  | timerFire s _ ih => exact inv_tick s ih
  | newGame s b _ _ _ => exact inv_initGame s b

/-- C9 witness: the state after a reset and one applied click, where the
timer is indeed running. -/
theorem running_implies_started_w :
    (requestMove (initGame initialState sampleBoard) 13).hasStarted = true :=
  running_implies_started _
    (Reach.move _ 13 (Reach.newGame _ _ Reach.start
      ⟨⟨sampleChoices, fun i => Nat.zero_le i, rfl⟩, by decide⟩))
    (by decide)

lemma reject_cases (s : SessionState) (p : Nat)
    (hno : ¬(isComplete s.tiles = false ∧ isAdjacent s.tiles p = true)) :
    isComplete s.tiles = true ∨ isAdjacent s.tiles p = false := by
  cases hc : isComplete s.tiles
  · cases ha : isAdjacent s.tiles p
    · exact Or.inr rfl
    · exact absurd ⟨hc, ha⟩ hno
  · exact Or.inl rfl

/-- C6: the shuffle retry loop only delivers permutations of the labels 0..15
with exactly one empty label, and an in-range move request, applied or
rejected, preserves the permutation invariant of the tiles array. -/
theorem board_invariant :
    (∀ b : List Nat, producedByInitGame b →
      b.Perm (List.range TOTAL_TILES) ∧
        b.countP (fun x => x == EMPTY_TILE) = 1) ∧
    (∀ (s : SessionState) (p : Nat), p < TOTAL_TILES →
      s.tiles.Perm ((List.range TOTAL_TILES).map some) →
      (requestMove s p).tiles.Perm ((List.range TOTAL_TILES).map some)) := by
  constructor
  · intro b h
    have hperm : b.Perm (List.range TOTAL_TILES) := produced_perm h
    refine ⟨hperm, ?_⟩
    rw [hperm.countP_eq (fun x => x == EMPTY_TILE)]
    decide
  · intro s p hp hperm
    have hlen : s.tiles.length = TOTAL_TILES := board_length hperm
    by_cases happ : isComplete s.tiles = false ∧ isAdjacent s.tiles p = true
    · obtain ⟨e, hf, he, hg, _⟩ :=
        find_unique (some EMPTY_TILE) none s.tiles (board_count hperm)
      rw [requestMove_tiles,
        applied_tiles s p e happ.1 happ.2 hf he (by omega)]
      exact (swap_perm none s.tiles p e (by omega) he).trans hperm
    · rw [requestMove_tiles, rejected_state s p (reject_cases s p happ)]
      exact hperm

/-- C6 witness: a concrete shuffle output and a concrete applied move. -/
theorem board_invariant_w :
    (sampleBoard.Perm (List.range TOTAL_TILES) ∧
      sampleBoard.countP (fun x => x == EMPTY_TILE) = 1) ∧
    (requestMove c4state 11).tiles.Perm ((List.range TOTAL_TILES).map some) :=
  ⟨board_invariant.1 sampleBoard
      ⟨⟨sampleChoices, fun i => Nat.zero_le i, rfl⟩, by decide⟩,
    board_invariant.2 c4state 11 (by decide) (by decide)⟩

/-- C3: for a permutation board and an in-range target, the click is applied
exactly when the board is not complete and the target is adjacent to the
empty slot, in which case the result swaps precisely the clicked position and
the empty position; otherwise the board is left unchanged, with no failure
outcome of any kind. -/
theorem move_request_spec (s : SessionState) (p : Nat) (hp : p < TOTAL_TILES)
    (hperm : s.tiles.Perm ((List.range TOTAL_TILES).map some)) :
    ((isComplete s.tiles = false ∧ isAdjacent s.tiles p = true) →
      ∃ e, e < TOTAL_TILES ∧ s.tiles.getD e none = some EMPTY_TILE ∧
        (requestMove s p).tiles =
          (s.tiles.set p (s.tiles.getD e none)).set e (s.tiles.getD p none)) ∧
    (¬(isComplete s.tiles = false ∧ isAdjacent s.tiles p = true) →
      (requestMove s p).tiles = s.tiles) := by
  have hlen : s.tiles.length = TOTAL_TILES := board_length hperm
  constructor
  · rintro ⟨hc, ha⟩
    obtain ⟨e, hf, he, hg, _⟩ :=
      find_unique (some EMPTY_TILE) none s.tiles (board_count hperm)
    refine ⟨e, by omega, hg, ?_⟩
    rw [requestMove_tiles, applied_tiles s p e hc ha hf he (by omega)]
  · intro hno
    rw [requestMove_tiles, rejected_state s p (reject_cases s p hno)]

/-- C3 witness: the scenario board with the applied click on 11. -/
theorem move_request_spec_w :
    ((isComplete c4state.tiles = false ∧ isAdjacent c4state.tiles 11 = true) →
      ∃ e, e < TOTAL_TILES ∧ c4state.tiles.getD e none = some EMPTY_TILE ∧
        (requestMove c4state 11).tiles =
          (c4state.tiles.set 11 (c4state.tiles.getD e none)).set e
            (c4state.tiles.getD 11 none)) ∧
    (¬(isComplete c4state.tiles = false ∧ isAdjacent c4state.tiles 11 = true) →
      (requestMove c4state 11).tiles = c4state.tiles) :=
  move_request_spec c4state 11 (by decide) (by decide)

lemma natAbs_sub_swap (a b : Int) : (a - b).natAbs = (b - a).natAbs := by
  rw [← Int.natAbs_neg (a - b), neg_sub]

lemma isAdjacent_self_false (t : Board) (e : Nat)
    (hf : findEmptyIndex t = (e : Int)) : isAdjacent t e = false := by
  unfold isAdjacent
  rw [hf]
  simp

lemma adjacent_ne (t : Board) (p e : Nat) (hf : findEmptyIndex t = (e : Int))
    (ha : isAdjacent t p = true) : p ≠ e := by
  intro hpe
  subst hpe
  rw [isAdjacent_self_false t p hf] at ha
  cases ha

lemma isAdjacent_swap_back (t t2 : Board) (p e : Nat)
    (hf : findEmptyIndex t = (e : Int)) (hf2 : findEmptyIndex t2 = (p : Int))
    (ha : isAdjacent t p = true) : isAdjacent t2 e = true := by
  unfold isAdjacent at ha ⊢
  rw [hf] at ha
  rw [hf2]
  simp only [] at ha ⊢
  rw [natAbs_sub_swap ((p : Int).fdiv (GRID_SIZE : Int)) ((e : Int).fdiv (GRID_SIZE : Int)),
    natAbs_sub_swap ((p : Int).tmod (GRID_SIZE : Int)) ((e : Int).tmod (GRID_SIZE : Int))]
  exact ha

/-- On a permutation board, after an applied click on p, with e the previous
position of the empty slot, the immediately repeated click on the same p is
always rejected and leaves the board unchanged: the empty slot now sits at p,
which is not adjacent to itself. The realizable inverse is the click on e,
which restores the original board exactly whenever it is applied in turn,
that is, whenever the first move did not complete the board. -/
lemma move_undo (s : SessionState) (p e : Nat) (hp : p < TOTAL_TILES)
    (hperm : s.tiles.Perm ((List.range TOTAL_TILES).map some))
    (hc : isComplete s.tiles = false) (ha : isAdjacent s.tiles p = true)
    (he : e < TOTAL_TILES) (hg : s.tiles.getD e none = some EMPTY_TILE) :
    (requestMove (requestMove s p) p).tiles = (requestMove s p).tiles ∧
    (isComplete (requestMove s p).tiles = false →
      (requestMove (requestMove s p) e).tiles = s.tiles) := by
  have hlen : s.tiles.length = TOTAL_TILES := board_length hperm
  obtain ⟨e0, hf0, he0, hg0, hu0⟩ :=
    find_unique (some EMPTY_TILE) none s.tiles (board_count hperm)
  have hee : e0 = e := (hu0 e (by omega) hg).symm
  subst hee
  have hfe : findEmptyIndex s.tiles = (e0 : Int) := findEmptyIndex_eq hf0
  have hne : p ≠ e0 := adjacent_ne s.tiles p e0 hfe ha
  have hp' : p < s.tiles.length := by omega
  have h1 : (handleTileClick s p).tiles =
      (s.tiles.set p (s.tiles.getD e0 none)).set e0 (s.tiles.getD p none) :=
    applied_tiles s p e0 hc ha hf0 he0 hp'
  have hr1 : (requestMove s p).tiles =
      (s.tiles.set p (s.tiles.getD e0 none)).set e0 (s.tiles.getD p none) := by
    rw [requestMove_tiles]
    exact h1
  set t1 := (s.tiles.set p (s.tiles.getD e0 none)).set e0 (s.tiles.getD p none) with ht1
  have ht1perm : t1.Perm ((List.range TOTAL_TILES).map some) :=
    (swap_perm none s.tiles p e0 hp' he0).trans hperm
  have ht1len : t1.length = s.tiles.length := by
    rw [ht1, List.length_set, List.length_set]
  have hgp : t1.getD p none = some EMPTY_TILE := by
    rw [ht1, getD_set_ne _ _ _ hne.symm, getD_set_self _ _ _ _ hp', hg]
  have hge : t1.getD e0 none = s.tiles.getD p none := by
    rw [ht1, getD_set_self _ _ _ _ (by rw [List.length_set]; exact he0)]
  obtain ⟨e1, hf1, he1, hg1, hu1⟩ :=
    find_unique (some EMPTY_TILE) none t1 (board_count ht1perm)
  have hpe1 : e1 = p := (hu1 p (by omega) hgp).symm
  rw [hpe1] at hf1
  have hfe1 : findEmptyIndex t1 = (p : Int) := findEmptyIndex_eq hf1
  constructor
  · have hadj1 : isAdjacent (requestMove s p).tiles p = false := by
      rw [hr1]
      exact isAdjacent_self_false t1 p hfe1
    rw [requestMove_tiles, rejected_state _ p (Or.inr hadj1)]
  · intro hnc2
    have ha2 : isAdjacent (requestMove s p).tiles e0 = true := by
      rw [hr1]
      exact isAdjacent_swap_back s.tiles t1 p e0 hfe hfe1 ha
    have hf2 : List.findIdx? (fun x => x == some EMPTY_TILE)
        (requestMove s p).tiles = some p := by
      rw [hr1]
      exact hf1
    have happ2 := applied_tiles (requestMove s p) e0 p hnc2 ha2 hf2
      (by rw [hr1, ht1len]; exact hp') (by rw [hr1, ht1len]; exact he0)
    rw [requestMove_tiles, happ2, hr1, hgp, hge, ht1, List.set_set,
      List.set_comm _ _ _ hne.symm, List.set_set, set_getD_self _ _ _ hp',
      ← hg, set_getD_self _ _ _ he0]

lemma countP_lt_sum (x : Nat) (xs : List Nat) :
    (∑ j in Finset.range xs.length, if xs.getD j 0 < x then 1 else 0)
      = xs.countP (fun y => decide (x > y)) := by
  induction xs with
  | nil => simp
  | cons y ys ih =>
    rw [List.length_cons, Finset.sum_range_succ']
    simp only [List.getD_cons_succ, List.getD_cons_zero]
    rw [ih, List.countP_cons]
    by_cases hyx : y < x
    · simp [hyx]
    · simp [hyx]

lemma inv_double_sum (l : List Nat) :
    (∑ i in Finset.range l.length, ∑ j in Finset.range l.length,
        if i < j ∧ l.getD j 0 < l.getD i 0 then 1 else 0) = countInversions l := by
  induction l with
  | nil => simp [countInversions]
  | cons x xs ih =>
    rw [List.length_cons, Finset.sum_range_succ']
    have hinner : ∀ i : Nat, (∑ j in Finset.range (xs.length + 1),
        if i + 1 < j ∧ (x :: xs).getD j 0 < (x :: xs).getD (i + 1) 0 then 1 else 0)
        = ∑ j in Finset.range xs.length,
            if i < j ∧ xs.getD j 0 < xs.getD i 0 then 1 else 0 := by
      intro i
      rw [Finset.sum_range_succ']
      simp only [List.getD_cons_succ, List.getD_cons_zero,
        Nat.add_lt_add_iff_right]
      simp
    have hzero : (∑ j in Finset.range (xs.length + 1),
        if 0 < j ∧ (x :: xs).getD j 0 < (x :: xs).getD 0 0 then 1 else 0)
        = xs.countP (fun y => decide (x > y)) := by
      rw [Finset.sum_range_succ']
      simp only [List.getD_cons_succ, List.getD_cons_zero, Nat.zero_lt_succ,
        true_and, lt_self_iff_false, false_and, if_false, add_zero]
      exact countP_lt_sum x xs
    simp only [hinner]
    rw [ih, hzero]
    show _ = xs.countP (fun y => decide (x > y)) + countInversions xs
    omega

lemma specInv_eq (l : List Nat) : specInversionCount l = countInversions l := by
  unfold specInversionCount
  rw [Finset.card_filter, Finset.sum_product]
  exact inv_double_sum l

/-- C2: on every permutation of 0..15, the solvability check returns true
exactly when the parity rule of the specification holds: with the inversion
count taken over the non-empty labels in order and emptyRowFromBottom equal
to 4 minus the row of the empty slot, the check accepts exactly the boards
with an odd distance and an even count, or an even distance and an odd
count. -/
theorem solvability_parity (b : List Nat)
    (hperm : b.Perm (List.range TOTAL_TILES)) :
    isSolvable b = true ↔ specSolvable b := by
  have hlen : b.length = 16 := by
    rw [hperm.length_eq, List.length_range]
    decide
  have hcount : b.countP (fun x => x == EMPTY_TILE) = 1 := by
    rw [hperm.countP_eq]
    decide
  obtain ⟨e, hf, he, hg, hu⟩ := find_unique EMPTY_TILE 0 b hcount
  have hiof : jsIndexOfNat b EMPTY_TILE = (e : Int) := by
    unfold jsIndexOfNat
    rw [hf]
  have hspec : specSolvable b ↔
      ((Odd (GRID_SIZE - e / GRID_SIZE) ∧
          Even (specInversionCount (b.filter (fun x => x != EMPTY_TILE)))) ∨
        (Even (GRID_SIZE - e / GRID_SIZE) ∧
          Odd (specInversionCount (b.filter (fun x => x != EMPTY_TILE))))) := by
    constructor
    · rintro ⟨e2, he2, hg2, hpar⟩
      have hee := hu e2 he2 hg2
      rw [hee] at hpar
      exact hpar
    · intro hpar
      exact ⟨e, he, hg, hpar⟩
  rw [hspec, specInv_eq]
  unfold isSolvable
  rw [hiof]
  simp only []
  have he16 : e < 16 := by omega
  interval_cases e <;>
    (first
      | rw [if_pos (by decide)]
      | rw [if_neg (by decide)]) <;>
    simp [GRID_SIZE, Nat.even_iff, Nat.odd_iff]

/-- C2 witness: the parity equivalence at the concrete scenario board. -/
theorem solvability_parity_w :
    isSolvable c4list = true ↔ specSolvable c4list :=
  solvability_parity c4list (by decide)
